import Mathlib

/-!
Shallow embedding of the `rust_toy_rsa` library (`src/lib.rs`).

The Rust code is generic over `N : Integer` (the `num` crate); its tests
instantiate `N = i64`.  We embed the arithmetic over `Int`, with the
conventions of the `num` crate for signed integers:

* `Integer::div_rem` is simultaneous *truncated* division and remainder
  (the same as Rust's `/` and `%` on signed integers), which on `Int`
  is `Int.tdiv` / `Int.tmod`;
* `%` is the truncated remainder `Int.tmod`;
* `x >> 1` (arithmetic shift right by one) agrees with `Int.tdiv x 2`
  for the values on which the code shifts (the loop guard guarantees
  `0 < exponent` whenever the shift executes);
* `Integer::gcd` is the non-negative gcd, i.e. `Int.gcd` (valued in `Nat`);
* division by zero panics in Rust, so the functions that divide by a
  caller-supplied modulus are embedded with an `Option` result, `none`
  standing for the panic.

The random source consumed by `gen_key_pair` (`rng.gen_range(1, φ)` inside
`RepeatCall::new(..).find(..)`) is embedded as a stream `draws : Nat → Int`
of successive samples; `rand`'s `gen_range(low, high)` contract — a value
in the half-open range `[low, high)` — becomes a hypothesis on the stream,
and the unbounded rejection loop returns the first draw that is coprime
to φ, located by `Nat.find`.
-/

namespace ToyRsa

/-- Loop of `util::mod_mult_inv` from `src/lib.rs`: the extended Euclidean
algorithm carrying the Bézout coefficient pair `(t1, t2)`, with
`div_rem` = truncated division.  The loop runs while `r2 ≠ 0`. -/
def mod_mult_inv_loop (r1 r2 t1 t2 : Int) : Int :=
  if r2 = 0 then t1
  else mod_mult_inv_loop r2 (Int.tmod r1 r2) t2 (t1 - Int.tdiv r1 r2 * t2)
termination_by r2.natAbs
decreasing_by
  rename_i h
  rcases Int.le_or_lt 0 r1 with h1 | h1
  · have h0 : 0 ≤ Int.tmod r1 r2 := Int.tmod_nonneg r2 h1
    have h2 : Int.tmod r1 r2 < r2.natAbs := by
      rcases Int.lt_or_lt_of_ne h with hneg | hpos
      · have := Int.tmod_lt_of_pos r1 (b := -r2) (by omega)
        rw [Int.tmod_neg] at this; omega
      · have := Int.tmod_lt_of_pos r1 hpos; omega
    omega
  · have h0 : 0 ≤ Int.tmod (-r1) r2 := Int.tmod_nonneg r2 (by omega)
    have h2 : Int.tmod (-r1) r2 < r2.natAbs := by
      rcases Int.lt_or_lt_of_ne h with hneg | hpos
      · have := Int.tmod_lt_of_pos (-r1) (b := -r2) (by omega)
        rw [Int.tmod_neg] at this; omega
      · have := Int.tmod_lt_of_pos (-r1) hpos; omega
    have hneg : Int.tmod r1 r2 = -Int.tmod (-r1) r2 := by
      rw [Int.tmod_def, Int.tmod_def, Int.neg_tdiv]; ring
    rw [hneg]; omega

/-- `util::mod_mult_inv` from `src/lib.rs`: `(t1, t2)` initialised to
`(0, 1)`, loop until `r2` is zero, return the final `t1`. -/
def mod_mult_inv (r1 r2 : Int) : Int :=
  mod_mult_inv_loop r1 r2 0 1

/-- Fuel-indexed unfolding of `mod_mult_inv_loop`, used to evaluate the
well-founded recursion on concrete inputs. -/
def mod_mult_inv_fuel : Nat → Int → Int → Int → Int → Int
  | 0, _, _, t1, _ => t1
  | fuel + 1, r1, r2, t1, t2 =>
    if r2 = 0 then t1
    else mod_mult_inv_fuel fuel r2 (Int.tmod r1 r2) t2 (t1 - Int.tdiv r1 r2 * t2)

/-- Loop of `util::mod_pow` from `src/lib.rs` (right-to-left binary
exponentiation).  One iteration: if the low bit of `exponent` is set,
fold `base` into `out`; shift the exponent; square the base.  All
reductions use the truncated `%` of the source. -/
def mod_pow_loop (base exponent modulo out : Int) : Int :=
  if 0 < exponent then
    mod_pow_loop (Int.tmod (base * base) modulo) (Int.tdiv exponent 2) modulo
      (if Int.tmod exponent 2 = 1 then Int.tmod (out * base) modulo else out)
  else out
termination_by exponent.toNat
decreasing_by
  rename_i h
  have h1 : Int.tdiv exponent 2 = exponent / 2 :=
    Int.tdiv_eq_ediv (by omega) (by omega)
  have h2 : exponent / 2 < exponent := Int.ediv_lt_of_lt_mul (by omega) (by omega)
  have h3 : 0 ≤ exponent / 2 := Int.ediv_nonneg (by omega) (by omega)
  rw [h1]; omega

/-- `util::mod_pow` from `src/lib.rs`.  The first statement of the body,
`base = base % modulo`, divides by `modulo`, so a zero modulus panics in
Rust before the loop is reached; the embedding returns `none` there. -/
def mod_pow (base exponent modulo : Int) : Option Int :=
  if modulo = 0 then none
  else some (mod_pow_loop (Int.tmod base modulo) exponent modulo 1)

/-- Fuel-indexed unfolding of `mod_pow_loop`, used to evaluate the
well-founded recursion on concrete inputs. -/
def mod_pow_fuel : Nat → Int → Int → Int → Int → Int
  | 0, _, _, _, out => out
  | fuel + 1, base, exponent, modulo, out =>
    if 0 < exponent then
      mod_pow_fuel fuel (Int.tmod (base * base) modulo) (Int.tdiv exponent 2) modulo
        (if Int.tmod exponent 2 = 1 then Int.tmod (out * base) modulo else out)
    else out

/-- `PublicKey(n, e)` from `src/lib.rs` (tuple struct: `.0` is the modulus,
`.1` the public exponent). -/
structure PublicKey where
  n : Int
  e : Int
deriving DecidableEq, Repr

/-- `PrivateKey(d)` from `src/lib.rs`: a single private exponent, no
modulus is stored. -/
structure PrivateKey where
  d : Int
deriving DecidableEq, Repr

/-- `KeyPair<N> = (PublicKey<N>, PrivateKey<N>)`. -/
abbrev KeyPair := PublicKey × PrivateKey

/-- `encrypt` from `src/lib.rs`: `mod_pow(data, key.1, key.0)`. -/
def encrypt (data : Int) (key : PublicKey) : Option Int :=
  mod_pow data key.e key.n

/-- `decrypt` from `src/lib.rs`: `mod_pow(data, private_key.0, public_key.0)`
— the modulus comes from the public half of the pair. -/
def decrypt (data : Int) (key : KeyPair) : Option Int :=
  mod_pow data key.2.d key.1.n

/-- `gen_key_pair` from `src/lib.rs`.  `draws` is the stream of samples
produced by `rng.gen_range(1, φ)`; the `RepeatCall::new(..).find(..)`
rejection loop returns the first draw `x` with `φ.gcd(x) == 1`, which the
embedding locates with `Nat.find` (the hypothesis `h` is the termination
of the unbounded search).  `d` is the modular inverse normalised to be
non-negative, exactly as in the source. -/
def gen_key_pair (p q : Int) (draws : Nat → Int)
    (h : ∃ i, Int.gcd ((p - 1) * (q - 1)) (draws i) = 1) : KeyPair :=
  let n := p * q
  let phi := (p - 1) * (q - 1)
  let e := draws (Nat.find h)
  let d :=
    let inv := mod_mult_inv phi e
    if inv < 0 then inv + phi else inv
  (⟨n, e⟩, ⟨d⟩)

/-! ### Basic facts about the truncated remainder -/

/-- The truncated remainder follows the sign of the dividend:
negating the dividend negates the remainder. -/
theorem tmod_neg_left (a b : Int) : Int.tmod (-a) b = -Int.tmod a b := by
  rw [Int.tmod_def, Int.tmod_def, Int.neg_tdiv]; ring

/-- Magnitude of the truncated remainder is below that of the divisor. -/
theorem natAbs_tmod_lt (r1 r2 : Int) (h : r2 ≠ 0) :
    (Int.tmod r1 r2).natAbs < r2.natAbs := by
  rcases Int.le_or_lt 0 r1 with h1 | h1
  · have h0 : 0 ≤ Int.tmod r1 r2 := Int.tmod_nonneg r2 h1
    have h2 : Int.tmod r1 r2 < r2.natAbs := by
      rcases Int.lt_or_lt_of_ne h with hneg | hpos
      · have := Int.tmod_lt_of_pos r1 (b := -r2) (by omega)
        rw [Int.tmod_neg] at this; omega
      · have := Int.tmod_lt_of_pos r1 hpos; omega
    omega
  · have h0 : 0 ≤ Int.tmod (-r1) r2 := Int.tmod_nonneg r2 (by omega)
    have h2 : Int.tmod (-r1) r2 < r2.natAbs := by
      rcases Int.lt_or_lt_of_ne h with hneg | hpos
      · have := Int.tmod_lt_of_pos (-r1) (b := -r2) (by omega)
        rw [Int.tmod_neg] at this; omega
      · have := Int.tmod_lt_of_pos (-r1) hpos; omega
    have hneg : Int.tmod r1 r2 = -Int.tmod (-r1) r2 := by
      rw [Int.tmod_def, Int.tmod_def, Int.neg_tdiv]; ring
    rw [hneg]; omega

/-- On non-negative congruent values the truncated remainders agree
(they coincide with the Euclidean remainder there). -/
theorem tmod_eq_tmod_of_modEq_nonneg {x y m : Int} (hxy : Int.ModEq m x y)
    (hx : 0 ≤ x) (hy : 0 ≤ y) : Int.tmod x m = Int.tmod y m := by
  rcases Int.le_or_lt 0 m with hm | hm
  · rw [Int.tmod_eq_emod hx hm, Int.tmod_eq_emod hy hm]; exact hxy
  · have hxy' : Int.ModEq (-m) x y := by
      unfold Int.ModEq at hxy ⊢
      rwa [Int.emod_neg, Int.emod_neg]
    have := Int.tmod_neg x m
    have := Int.tmod_neg y m
    rw [← Int.tmod_neg x m, ← Int.tmod_neg y m,
      Int.tmod_eq_emod hx (by omega), Int.tmod_eq_emod hy (by omega)]
    exact hxy'

/-- Congruent values with the same sign have the same truncated remainder. -/
theorem tmod_eq_tmod_of_modEq_sign {x y m : Int} (hxy : Int.ModEq m x y)
    (hsign : (0 ≤ x ∧ 0 ≤ y) ∨ (x ≤ 0 ∧ y ≤ 0)) :
    Int.tmod x m = Int.tmod y m := by
  rcases hsign with ⟨hx, hy⟩ | ⟨hx, hy⟩
  · exact tmod_eq_tmod_of_modEq_nonneg hxy hx hy
  · have : Int.tmod (-x) m = Int.tmod (-y) m :=
      tmod_eq_tmod_of_modEq_nonneg (Int.ModEq.neg hxy) (by omega) (by omega)
    rw [tmod_neg_left, tmod_neg_left] at this
    omega

/-- The truncated remainder is congruent to the dividend. -/
theorem tmod_modEq (a m : Int) : Int.ModEq m (Int.tmod a m) a := by
  rw [Int.modEq_iff_dvd]
  have h := Int.tmod_def a m
  exact ⟨Int.tdiv a m, by omega⟩

/-- Reducing one factor with the truncated remainder does not change the
truncated remainder of a product. -/
theorem mul_tmod_left_reduce (a b m : Int) :
    Int.tmod (Int.tmod a m * b) m = Int.tmod (a * b) m := by
  have hcong : Int.ModEq m (Int.tmod a m * b) (a * b) :=
    (tmod_modEq a m).mul_right b
  apply tmod_eq_tmod_of_modEq_sign hcong
  rcases Int.le_or_lt 0 a with ha | ha
  · have h0 : 0 ≤ Int.tmod a m := Int.tmod_nonneg m ha
    rcases Int.le_or_lt 0 b with hb | hb
    · exact Or.inl ⟨Int.mul_nonneg h0 hb, Int.mul_nonneg ha hb⟩
    · exact Or.inr ⟨Int.mul_nonpos_of_nonneg_of_nonpos h0 (by omega),
        Int.mul_nonpos_of_nonneg_of_nonpos ha (by omega)⟩
  · have h0 : Int.tmod a m ≤ 0 := by
      have := Int.tmod_nonneg m (a := -a) (by omega)
      have := tmod_neg_left a m
      omega
    rcases Int.le_or_lt 0 b with hb | hb
    · exact Or.inr ⟨Int.mul_nonpos_of_nonpos_of_nonneg h0 hb,
        Int.mul_nonpos_of_nonpos_of_nonneg (by omega) hb⟩
    · exact Or.inl ⟨by nlinarith, by nlinarith⟩

/-- Reducing both factors with the truncated remainder does not change the
truncated remainder of a product. -/
theorem mul_tmod_reduce (a b m : Int) :
    Int.tmod (Int.tmod a m * Int.tmod b m) m = Int.tmod (a * b) m := by
  rw [mul_tmod_left_reduce]
  rw [Int.mul_comm a (Int.tmod b m), mul_tmod_left_reduce, Int.mul_comm b a]

/-! ### Fuel characterisations of the two loops -/

/-- The extended-Euclid loop finishes within any fuel bounding `|r2|`. -/
theorem mod_mult_inv_loop_eq_fuel :
    ∀ (fuel : Nat) (r1 r2 t1 t2 : Int), r2.natAbs ≤ fuel →
      mod_mult_inv_loop r1 r2 t1 t2 = mod_mult_inv_fuel fuel r1 r2 t1 t2 := by
  intro fuel
  induction fuel with
  | zero =>
    intro r1 r2 t1 t2 h
    have h0 : r2 = 0 := by omega
    subst h0
    rw [mod_mult_inv_loop]
    simp [mod_mult_inv_fuel]
  | succ n ih =>
    intro r1 r2 t1 t2 h
    rw [mod_mult_inv_loop]
    by_cases h2 : r2 = 0
    · subst h2; simp [mod_mult_inv_fuel]
    · rw [if_neg h2]
      unfold mod_mult_inv_fuel
      rw [if_neg h2]
      exact ih _ _ _ _ (by have := natAbs_tmod_lt r1 r2 h2; omega)

/-- The binary-exponentiation loop finishes within any fuel bounding the
(non-negative part of the) exponent. -/
theorem mod_pow_loop_eq_fuel :
    ∀ (fuel : Nat) (base exponent modulo out : Int), exponent.toNat ≤ fuel →
      mod_pow_loop base exponent modulo out = mod_pow_fuel fuel base exponent modulo out := by
  intro fuel
  induction fuel with
  | zero =>
    intro base exponent modulo out h
    rw [mod_pow_loop]
    have h0 : ¬ 0 < exponent := by omega
    rw [if_neg h0]
    simp [mod_pow_fuel]
  | succ n ih =>
    intro base exponent modulo out h
    rw [mod_pow_loop]
    unfold mod_pow_fuel
    by_cases h2 : 0 < exponent
    · rw [if_pos h2, if_pos h2]
      apply ih
      have h3 : Int.tdiv exponent 2 = exponent / 2 :=
        Int.tdiv_eq_ediv (by omega) (by omega)
      have h4 : exponent / 2 < exponent := Int.ediv_lt_of_lt_mul (by omega) (by omega)
      have h5 : 0 ≤ exponent / 2 := Int.ediv_nonneg (by omega) (by omega)
      rw [h3]; omega
    · rw [if_neg h2, if_neg h2]

/-! ### Correctness of the binary exponentiation loop -/

/-- Loop invariant of `mod_pow_loop`: starting from an accumulator and a
base that are truncated residues, the loop computes the truncated residue
of `u * v ^ E`. -/
theorem mod_pow_loop_spec (m : Int) :
    ∀ (E : Nat) (u v : Int),
      mod_pow_loop (Int.tmod v m) (E : Int) m (Int.tmod u m)
        = Int.tmod (u * v ^ E) m := by
  intro E
  induction E using Nat.strong_induction_on with
  | _ E ih =>
    intro u v
    rw [mod_pow_loop]
    by_cases hpos : 0 < (E : Int)
    · rw [if_pos hpos]
      have hE : 0 < E := by exact_mod_cast hpos
      have htdiv : Int.tdiv (E : Int) 2 = ((E / 2 : Nat) : Int) := by
        exact_mod_cast (Int.ofNat_tdiv E 2).symm
      have htmod : Int.tmod (E : Int) 2 = ((E % 2 : Nat) : Int) := by
        exact_mod_cast (Int.ofNat_tmod E 2).symm
      rw [mul_tmod_reduce v v m, htdiv, htmod]
      rcases Nat.mod_two_eq_zero_or_one E with hb | hb
      · rw [hb]
        rw [if_neg (by norm_num)]
        rw [ih (E / 2) (Nat.div_lt_self hE (by norm_num)) u (v * v)]
        have hsplit : E = 2 * (E / 2) := by omega
        congr 1
        conv_rhs => rw [hsplit]
        ring
      · rw [hb]
        rw [if_pos (by norm_num)]
        rw [mul_tmod_reduce u v m]
        rw [ih (E / 2) (Nat.div_lt_self hE (by norm_num)) (u * v) (v * v)]
        have hsplit : E = 2 * (E / 2) + 1 := by omega
        congr 1
        conv_rhs => rw [hsplit]
        ring
    · rw [if_neg hpos]
      have hE : E = 0 := by exact_mod_cast by omega
      subst hE
      simp

/-- With a modulus of magnitude one and a positive exponent, the loop
returns zero whatever the accumulator and base are. -/
theorem mod_pow_loop_abs_one {m : Int} (hm : m = 1 ∨ m = -1) :
    ∀ (E : Nat), 0 < E → ∀ base out, mod_pow_loop base (E : Int) m out = 0 := by
  have htmod1 : ∀ x : Int, Int.tmod x m = 0 := by
    intro x
    rcases hm with h | h <;> subst h
    · exact Int.tmod_one x
    · rw [show (-1 : Int) = -1 from rfl, Int.tmod_neg]; exact Int.tmod_one x
  intro E
  induction E using Nat.strong_induction_on with
  | _ E ih =>
    intro hE base out
    rw [mod_pow_loop, if_pos (by exact_mod_cast hE)]
    have htdiv : Int.tdiv (E : Int) 2 = ((E / 2 : Nat) : Int) := by
      exact_mod_cast (Int.ofNat_tdiv E 2).symm
    have htmod : Int.tmod (E : Int) 2 = ((E % 2 : Nat) : Int) := by
      exact_mod_cast (Int.ofNat_tmod E 2).symm
    rw [htdiv, htmod]
    by_cases h2 : 0 < E / 2
    · exact ih (E / 2) (Nat.div_lt_self hE (by norm_num)) h2 _ _
    · have hE1 : E = 1 := by omega
      subst hE1
      rw [show ((1 % 2 : Nat) : Int) = 1 by norm_num, if_pos rfl]
      rw [show ((1 / 2 : Nat) : Int) = ((0 : Nat) : Int) by norm_num]
      rw [mod_pow_loop]
      rw [if_neg (by norm_num)]
      exact htmod1 _

/-- The truncated residue of `1` is `1` whenever the modulus has magnitude
at least two. -/
theorem one_tmod_eq {m : Int} (hm0 : m ≠ 0) (hm1 : m ≠ 1) (hm2 : m ≠ -1) :
    Int.tmod 1 m = 1 := by
  rcases Int.le_or_lt 0 m with h | h
  · exact Int.tmod_eq_of_lt (by omega) (by omega)
  · rw [← Int.tmod_neg 1 m]
    exact Int.tmod_eq_of_lt (by omega) (by omega)

/-- `mod_pow` computes the truncated residue of `base ^ exponent`, for a
non-negative exponent and nonzero modulus — except in the corner
`exponent = 0`, `modulus = ±1`, where it returns the unreduced `1`. -/
theorem mod_pow_pow_aux :
    ∀ (base exponent modulo : Int), 0 ≤ exponent → modulo ≠ 0 →
      (0 < exponent ∨ (modulo ≠ 1 ∧ modulo ≠ -1)) →
      mod_pow base exponent modulo
        = some (Int.tmod (base ^ exponent.toNat) modulo) := by
  intro b e m he hm hc
  lift e to Nat using he with E hE
  unfold mod_pow
  rw [if_neg hm]
  simp only [Int.toNat_natCast]
  by_cases h1 : m = 1 ∨ m = -1
  · have hepos : 0 < E := by
      rcases hc with h | h
      · exact_mod_cast h
      · rcases h1 with h1 | h1 <;> simp [h1] at h
    rw [mod_pow_loop_abs_one h1 E hepos]
    have h0 : Int.tmod (b ^ E) m = 0 := by
      rcases h1 with h1 | h1 <;> subst h1
      · exact Int.tmod_one _
      · rw [show (-1 : Int) = -1 from rfl, Int.tmod_neg]; exact Int.tmod_one _
    rw [h0]
  · push_neg at h1
    have h1' : Int.tmod 1 m = 1 := one_tmod_eq hm h1.1 h1.2
    have := mod_pow_loop_spec m E 1 b
    rw [h1', Int.one_mul] at this
    rw [this]

/-- Exponent zero: the loop never runs and `mod_pow` returns the literal
`1` for any nonzero modulus. -/
theorem mod_pow_zero_aux :
    ∀ (base modulo : Int), modulo ≠ 0 → mod_pow base 0 modulo = some 1 := by
  intro base modulo hm
  unfold mod_pow
  rw [if_neg hm, mod_pow_loop_eq_fuel 0 _ _ _ _ (by decide)]
  rfl

/-- Modelled from the spec's own gloss of the contract: "the result of
brute-force repeated multiplication reduced modulo the same modulus" —
an accumulator starting at the multiplicative identity, multiplied by the
base and reduced (with the code's truncated `%`) once per exponent step. -/
def spec_brute_force_pow (base modulo : Int) : Nat → Int
  | 0 => 1
  | k + 1 => Int.tmod (spec_brute_force_pow base modulo k * base) modulo

/-- For a positive exponent the brute-force reference also computes the
truncated residue of `base ^ exponent` (for any modulus, zero included). -/
theorem spec_brute_force_pow_succ (b m : Int) :
    ∀ k : Nat, spec_brute_force_pow b m (k + 1) = Int.tmod (b ^ (k + 1)) m := by
  intro k
  induction k with
  | zero => simp [spec_brute_force_pow]
  | succ k ih =>
    show Int.tmod (spec_brute_force_pow b m (k + 1) * b) m = _
    rw [ih, mul_tmod_left_reduce, ← pow_succ]

/-- `mod_pow` agrees with the brute-force reference on every base, every
non-negative exponent and every nonzero modulus. -/
theorem mod_pow_brute_aux :
    ∀ (base exponent modulo : Int), 0 ≤ exponent → modulo ≠ 0 →
      mod_pow base exponent modulo
        = some (spec_brute_force_pow base modulo exponent.toNat) := by
  intro b e m he hm
  rcases hE : e.toNat with _ | k
  · have h0 : e = 0 := by omega
    subst h0
    rw [mod_pow_zero_aux b m hm]
    rfl
  · have hepos : 0 < e := by omega
    rw [mod_pow_pow_aux b e m he hm (Or.inl hepos), hE,
      spec_brute_force_pow_succ b m k]

/-- For a non-negative base and a modulus above one, `mod_pow` succeeds
and its value lies in `[0, modulus)`. -/
theorem mod_pow_range_aux :
    ∀ (base exponent modulo : Int), 0 ≤ base → 0 ≤ exponent → 1 < modulo →
      ∃ r, mod_pow base exponent modulo = some r ∧ 0 ≤ r ∧ r < modulo := by
  intro b e m hb he hm
  refine ⟨Int.tmod (b ^ e.toNat) m, ?_, ?_, ?_⟩
  · exact mod_pow_pow_aux b e m he (by omega) (Or.inr ⟨by omega, by omega⟩)
  · exact Int.tmod_nonneg m (pow_nonneg hb _)
  · exact Int.tmod_lt_of_pos _ (by omega)

/-! ### Claim C2: `mod_pow` against the brute-force reference -/

/-- C2 (amended): for every base, non-negative exponent and nonzero
modulus, `mod_pow` equals brute-force repeated multiplication reduced with
the code's truncated `%`; it moreover equals the truncated residue of
`base ^ exponent` except in the corner `exponent = 0` with modulus `±1`
(where it returns the unreduced identity `1`).  The two concrete values of
the repository's test suite hold. -/
theorem mod_pow_correct :
    (∀ (base exponent modulo : Int), 0 ≤ exponent → modulo ≠ 0 →
      mod_pow base exponent modulo
        = some (spec_brute_force_pow base modulo exponent.toNat)) ∧
    (∀ (base exponent modulo : Int), 0 ≤ exponent → modulo ≠ 0 →
      (0 < exponent ∨ (modulo ≠ 1 ∧ modulo ≠ -1)) →
      mod_pow base exponent modulo
        = some (Int.tmod (base ^ exponent.toNat) modulo)) ∧
    mod_pow 3120 17 2753 = some 1046 ∧ mod_pow 240 46 47 = some 1 := by
  refine ⟨mod_pow_brute_aux, mod_pow_pow_aux, ?_, ?_⟩
  · show (if (2753 : Int) = 0 then none
        else some (mod_pow_loop (Int.tmod 3120 2753) 17 2753 1)) = some 1046
    rw [if_neg (by decide), mod_pow_loop_eq_fuel 17 _ _ _ _ (by decide)]
    decide
  · show (if (47 : Int) = 0 then none
        else some (mod_pow_loop (Int.tmod 240 47) 46 47 1)) = some 1
    rw [if_neg (by decide), mod_pow_loop_eq_fuel 46 _ _ _ _ (by decide)]
    decide

/-- Witness for C2's theorem: both conjuncts instantiated at concrete
inputs. -/
theorem mod_pow_correct_witness :
    mod_pow 5 3 7 = some (spec_brute_force_pow 5 7 ((3 : Int)).toNat) ∧
    mod_pow 5 3 7 = some (Int.tmod ((5 : Int) ^ ((3 : Int)).toNat) 7) :=
  ⟨mod_pow_correct.1 5 3 7 (by decide) (by decide),
   mod_pow_correct.2.1 5 3 7 (by decide) (by decide) (Or.inl (by decide))⟩

/-- C2 counterexample to the claim as stated: at base 5, exponent 0 and
modulus 1 the code returns the unreduced `1`, while
`(5 ^ 0) mod 1 = 0`. -/
theorem mod_pow_pow_counterexample :
    mod_pow 5 0 1 = some 1 ∧
    Int.tmod ((5 : Int) ^ ((0 : Int)).toNat) 1 = 0 ∧
    mod_pow 5 0 1 ≠ some (Int.tmod ((5 : Int) ^ ((0 : Int)).toNat) 1) := by
  have h := mod_pow_zero_aux 5 1 (by decide)
  refine ⟨h, by decide, ?_⟩
  rw [h]
  decide

/-! ### Claim C10: results stay in `[0, modulus)` -/

/-- C10: for a non-negative base, non-negative exponent and modulus above
one, `mod_pow` returns a value in `[0, modulus)`; in particular the
ciphertext `encrypt` produces from a plaintext in `[0, n)` (with `n > 1`
and a non-negative public exponent) is itself in `[0, n)`, a valid input
to `decrypt`. -/
theorem mod_pow_in_range :
    (∀ (base exponent modulo : Int), 0 ≤ base → 0 ≤ exponent → 1 < modulo →
      ∃ r, mod_pow base exponent modulo = some r ∧ 0 ≤ r ∧ r < modulo) ∧
    (∀ (m n e : Int), 0 ≤ m → m < n → 1 < n → 0 ≤ e →
      ∃ c, encrypt m ⟨n, e⟩ = some c ∧ 0 ≤ c ∧ c < n) := by
  refine ⟨mod_pow_range_aux, ?_⟩
  intro m n e hm _ hn he
  exact mod_pow_range_aux m e n hm he hn

/-- Witness for C10's theorem at concrete inputs. -/
theorem mod_pow_in_range_witness :
    (∃ r, mod_pow 2 5 7 = some r ∧ 0 ≤ r ∧ r < 7) ∧
    (∃ c, encrypt 2 ⟨7, 5⟩ = some c ∧ 0 ≤ c ∧ c < 7) :=
  ⟨mod_pow_in_range.1 2 5 7 (by decide) (by decide) (by decide),
   mod_pow_in_range.2 2 7 5 (by decide) (by decide) (by decide) (by decide)⟩

/-! ### Claim C8: concrete values of `mod_mult_inv` -/

/-- C8: the two concrete evaluations recorded by the repository's own test
suite hold of the embedded `mod_mult_inv`: `mod_mult_inv 3120 17 = -367`
and `mod_mult_inv 240 46 = 47`. -/
theorem mod_mult_inv_concrete :
    mod_mult_inv 3120 17 = -367 ∧ mod_mult_inv 240 46 = 47 := by
  constructor
  · show mod_mult_inv_loop 3120 17 0 1 = -367
    rw [mod_mult_inv_loop_eq_fuel 17 3120 17 0 1 (by decide)]
    decide
  · show mod_mult_inv_loop 240 46 0 1 = 47
    rw [mod_mult_inv_loop_eq_fuel 46 240 46 0 1 (by decide)]
    decide

/-! ### Bézout property of the extended-Euclid loop -/

/-- The gcd is invariant under one step of the truncated Euclidean
algorithm. -/
theorem gcd_tmod_right (r1 r2 : Int) :
    Int.gcd r2 (Int.tmod r1 r2) = Int.gcd r1 r2 := by
  apply Nat.dvd_antisymm
  · rw [← Int.natCast_dvd_natCast]
    apply Int.dvd_gcd
    · have d1 : ((Int.gcd r2 (Int.tmod r1 r2) : Nat) : Int) ∣ r2 := Int.gcd_dvd_left
      have d2 : ((Int.gcd r2 (Int.tmod r1 r2) : Nat) : Int) ∣ Int.tmod r1 r2 :=
        Int.gcd_dvd_right
      have h3 : ((Int.gcd r2 (Int.tmod r1 r2) : Nat) : Int)
          ∣ r2 * Int.tdiv r1 r2 + Int.tmod r1 r2 := dvd_add (d1.mul_right _) d2
      rwa [Int.tdiv_add_tmod r1 r2] at h3
    · exact Int.gcd_dvd_left
  · rw [← Int.natCast_dvd_natCast]
    apply Int.dvd_gcd
    · exact Int.gcd_dvd_right
    · rw [Int.tmod_def]
      exact dvd_sub Int.gcd_dvd_left (Int.gcd_dvd_right.mul_right _)

/-- Loop invariant of `mod_mult_inv_loop`: if `t1`, `t2` are Bézout
coefficients of `r1`, `r2` against the original arguments `A`, `B`, then
the loop's result times `B` is congruent (mod `A`) to a value `g` of
magnitude `gcd A B`; `g` is non-negative whenever `r1` and `r2` are. -/
theorem mod_mult_inv_loop_bezout :
    ∀ (n : Nat) (r2 : Int), r2.natAbs = n →
      ∀ (r1 t1 t2 A B : Int),
        Int.ModEq A (t1 * B) r1 → Int.ModEq A (t2 * B) r2 →
        Int.gcd r1 r2 = Int.gcd A B →
        ∃ g : Int, Int.ModEq A (mod_mult_inv_loop r1 r2 t1 t2 * B) g ∧
          g.natAbs = Int.gcd A B ∧ (0 ≤ r1 → 0 ≤ r2 → 0 ≤ g) := by
  intro n
  induction n using Nat.strong_induction_on with
  | _ n ih =>
    intro r2 hn r1 t1 t2 A B h1 h2 hg
    rw [mod_mult_inv_loop]
    by_cases hz : r2 = 0
    · subst hz
      rw [if_pos rfl]
      refine ⟨r1, h1, ?_, fun ha _ => ha⟩
      rw [← hg, Int.gcd_zero_right]
    · rw [if_neg hz]
      have hstep : Int.ModEq A ((t1 - Int.tdiv r1 r2 * t2) * B) (Int.tmod r1 r2) := by
        have he : (t1 - Int.tdiv r1 r2 * t2) * B
            = t1 * B - Int.tdiv r1 r2 * (t2 * B) := by ring
        have hm : Int.tmod r1 r2 = r1 - Int.tdiv r1 r2 * r2 := by
          rw [Int.tmod_def]; ring
        rw [he, hm]
        exact h1.sub (h2.mul_left _)
      have hginv : Int.gcd r2 (Int.tmod r1 r2) = Int.gcd A B := by
        rw [gcd_tmod_right, hg]
      obtain ⟨g, hgc, hga, hgs⟩ :=
        ih (Int.tmod r1 r2).natAbs (by rw [← hn]; exact natAbs_tmod_lt r1 r2 hz)
          (Int.tmod r1 r2) rfl r2 t2 (t1 - Int.tdiv r1 r2 * t2) A B h2 hstep hginv
      exact ⟨g, hgc, hga, fun ha hb => hgs hb (Int.tmod_nonneg r2 ha)⟩

/-- Bézout property of `mod_mult_inv`: the result times the *second*
argument is congruent, modulo the *first*, to a value of magnitude
`gcd r1 r2`, non-negative when both arguments are. -/
theorem mod_mult_inv_bezout_aux (r1 r2 : Int) :
    ∃ g : Int, Int.ModEq r1 (mod_mult_inv r1 r2 * r2) g ∧
      g.natAbs = Int.gcd r1 r2 ∧ (0 ≤ r1 → 0 ≤ r2 → 0 ≤ g) := by
  have h1 : Int.ModEq r1 ((0 : Int) * r2) r1 := by
    rw [Int.zero_mul]
    exact Int.modEq_iff_dvd.mpr ⟨1, by ring⟩
  have h2 : Int.ModEq r1 ((1 : Int) * r2) r2 := by
    rw [Int.one_mul]
  exact mod_mult_inv_loop_bezout r2.natAbs r2 rfl r1 0 1 r1 r2 h1 h2 rfl

/-! ### The Bézout-coefficient pair and its size bound -/

/-- The Bézout coefficients `(s, t)` with `s * r1 + t * r2 = ±gcd`
produced by the same truncated Euclidean recursion as the loop; used to
express the loop's result in closed form and bound its magnitude. -/
def egcd_coeffs (r1 r2 : Int) : Int × Int :=
  if r2 = 0 then (1, 0)
  else
    let c := egcd_coeffs r2 (Int.tmod r1 r2)
    (c.2, c.1 - Int.tdiv r1 r2 * c.2)
termination_by r2.natAbs
decreasing_by
  rename_i h
  exact natAbs_tmod_lt r1 r2 h

/-- The loop is linear in its coefficient accumulators, with the
`egcd_coeffs` pair as the coefficients. -/
theorem mod_mult_inv_loop_linear :
    ∀ (n : Nat) (r2 : Int), r2.natAbs = n → ∀ (r1 t1 t2 : Int),
      mod_mult_inv_loop r1 r2 t1 t2
        = (egcd_coeffs r1 r2).1 * t1 + (egcd_coeffs r1 r2).2 * t2 := by
  intro n
  induction n using Nat.strong_induction_on with
  | _ n ih =>
    intro r2 hn r1 t1 t2
    rw [mod_mult_inv_loop, egcd_coeffs]
    by_cases hz : r2 = 0
    · subst hz
      rw [if_pos rfl, if_pos rfl]
      ring
    · rw [if_neg hz, if_neg hz]
      rw [ih (Int.tmod r1 r2).natAbs (by rw [← hn]; exact natAbs_tmod_lt r1 r2 hz)
        (Int.tmod r1 r2) rfl r2 t2 (t1 - Int.tdiv r1 r2 * t2)]
      ring

/-- Size bound on the Bézout coefficients for `1 ≤ r2 < r1`:
`|s| ≤ r2` and `|t| ≤ r1`. -/
theorem egcd_coeffs_bound :
    ∀ (n : Nat) (r2 : Int), r2.natAbs = n → ∀ r1 : Int, 1 ≤ r2 → r2 < r1 →
      -r2 ≤ (egcd_coeffs r1 r2).1 ∧ (egcd_coeffs r1 r2).1 ≤ r2 ∧
      -r1 ≤ (egcd_coeffs r1 r2).2 ∧ (egcd_coeffs r1 r2).2 ≤ r1 := by
  intro n
  induction n using Nat.strong_induction_on with
  | _ n ih =>
    intro r2 hn r1 hr2 hr1
    rw [egcd_coeffs, if_neg (by omega)]
    dsimp only []
    have hr : 0 ≤ Int.tmod r1 r2 := Int.tmod_nonneg r2 (by omega)
    have hrlt : Int.tmod r1 r2 < r2 := Int.tmod_lt_of_pos r1 (by omega)
    have hq : 0 ≤ Int.tdiv r1 r2 := Int.tdiv_nonneg (by omega) (by omega)
    have heq : r2 * Int.tdiv r1 r2 + Int.tmod r1 r2 = r1 := Int.tdiv_add_tmod r1 r2
    by_cases hz : Int.tmod r1 r2 = 0
    · rw [hz]
      rw [show egcd_coeffs r2 0 = (1, 0) from by rw [egcd_coeffs]; simp]
      refine ⟨by simp; omega, by simp; omega, by simp; omega, by simp; omega⟩
    · obtain ⟨hb1, hb2, hb3, hb4⟩ :=
        ih (Int.tmod r1 r2).natAbs (by rw [← hn]; exact natAbs_tmod_lt r1 r2 (by omega))
          (Int.tmod r1 r2) rfl r2 (by omega) hrlt
      set c := egcd_coeffs r2 (Int.tmod r1 r2) with hc
      have hm1 : Int.tdiv r1 r2 * c.2 ≤ Int.tdiv r1 r2 * r2 :=
        mul_le_mul_of_nonneg_left hb4 hq
      have hm2 : Int.tdiv r1 r2 * (-r2) ≤ Int.tdiv r1 r2 * c.2 :=
        mul_le_mul_of_nonneg_left hb3 hq
      have hm3 : Int.tdiv r1 r2 * (-r2) = -(r2 * Int.tdiv r1 r2) := by ring
      have hm4 : Int.tdiv r1 r2 * r2 = r2 * Int.tdiv r1 r2 := by ring
      refine ⟨by omega, by omega, by linarith, by linarith⟩

/-- For `1 ≤ r2 < r1` the result of `mod_mult_inv` has magnitude at most
`r1`. -/
theorem mod_mult_inv_bound (r1 r2 : Int) (h1 : 1 ≤ r2) (h2 : r2 < r1) :
    -r1 ≤ mod_mult_inv r1 r2 ∧ mod_mult_inv r1 r2 ≤ r1 := by
  have hl := mod_mult_inv_loop_linear r2.natAbs r2 rfl r1 0 1
  have hb := egcd_coeffs_bound r2.natAbs r2 rfl r1 h1 h2
  unfold mod_mult_inv
  rw [hl]
  constructor <;> [nlinarith [hb.2.2.1, hb.2.2.2]; nlinarith [hb.2.2.1, hb.2.2.2]]

/-! ### Claim C3: Bézout congruence of `mod_mult_inv` -/

/-- C3 counterexample to the claim as stated: at `(r1, r2) = (3120, 17)`
the code returns `t = -367`, and `t·r1 = -367·3120` is *not* congruent to
`gcd(3120, 17) = 1` modulo `r2 = 17` (the roles of the two arguments are
the other way around: `t·r2 ≡ gcd (mod r1)`). -/
theorem mod_mult_inv_congr_counterexample :
    mod_mult_inv 3120 17 = -367 ∧ Int.gcd 3120 17 = 1 ∧
    ¬ Int.ModEq 17 ((-367) * 3120) ((Int.gcd 3120 17 : Nat) : Int) := by
  refine ⟨?_, by decide, ?_⟩
  · show mod_mult_inv_loop 3120 17 0 1 = -367
    rw [mod_mult_inv_loop_eq_fuel 17 3120 17 0 1 (by decide)]
    decide
  · intro h
    unfold Int.ModEq at h
    exact absurd h (by decide)

/-- C3 (amended): for every pair `(r1, r2)`, the value `t` returned by
`mod_mult_inv r1 r2` satisfies `t·r2 ≡ ±gcd(r1, r2) (mod r1)` — the
result multiplies the *second* argument and the congruence is modulo the
*first* — with the sign positive whenever both arguments are
non-negative; so for non-negative arguments with `gcd(r1, r2) = 1`, `t`
is a (possibly negative) modular inverse of `r2` mod `r1`. -/
theorem mod_mult_inv_bezout :
    (∀ r1 r2 : Int,
      Int.ModEq r1 (mod_mult_inv r1 r2 * r2) ((Int.gcd r1 r2 : Nat) : Int) ∨
      Int.ModEq r1 (mod_mult_inv r1 r2 * r2) (-((Int.gcd r1 r2 : Nat) : Int))) ∧
    (∀ r1 r2 : Int, 0 ≤ r1 → 0 ≤ r2 →
      Int.ModEq r1 (mod_mult_inv r1 r2 * r2) ((Int.gcd r1 r2 : Nat) : Int)) := by
  constructor
  · intro r1 r2
    obtain ⟨g, hc, ha, _⟩ := mod_mult_inv_bezout_aux r1 r2
    rcases Int.natAbs_eq g with h | h
    · left; rw [← ha, ← h]; exact hc
    · right; rw [← ha]
      have : -((g.natAbs : Nat) : Int) = g := by omega
      rwa [this]
  · intro r1 r2 h1 h2
    obtain ⟨g, hc, ha, hs⟩ := mod_mult_inv_bezout_aux r1 r2
    have hg : g = ((Int.gcd r1 r2 : Nat) : Int) := by
      have := hs h1 h2
      omega
    rwa [← hg]

/-- Witness for C3's theorem: both conjuncts at `(3120, 17)`. -/
theorem mod_mult_inv_bezout_witness :
    (Int.ModEq 3120 (mod_mult_inv 3120 17 * 17) ((Int.gcd 3120 17 : Nat) : Int) ∨
     Int.ModEq 3120 (mod_mult_inv 3120 17 * 17) (-((Int.gcd 3120 17 : Nat) : Int))) ∧
    Int.ModEq 3120 (mod_mult_inv 3120 17 * 17) ((Int.gcd 3120 17 : Nat) : Int) :=
  ⟨mod_mult_inv_bezout.1 3120 17,
   mod_mult_inv_bezout.2 3120 17 (by decide) (by decide)⟩

/-! ### Claim C9: termination of the `mod_mult_inv` loop -/

/-- C9: the loop of `mod_mult_inv` terminates — the magnitude of `r2`
strictly decreases on each iteration under truncated Euclidean
division-with-remainder, the loop exits exactly when `r2` is zero
returning the final `t1`, and consequently the whole loop completes
within `|r2| + 1` iterations. -/
theorem mod_mult_inv_terminates :
    (∀ r1 r2 : Int, r2 ≠ 0 → (Int.tmod r1 r2).natAbs < r2.natAbs) ∧
    (∀ r1 t1 t2 : Int, mod_mult_inv_loop r1 0 t1 t2 = t1) ∧
    (∀ r1 r2 t1 t2 : Int, r2 ≠ 0 →
      mod_mult_inv_loop r1 r2 t1 t2
        = mod_mult_inv_loop r2 (Int.tmod r1 r2) t2 (t1 - Int.tdiv r1 r2 * t2)) ∧
    (∀ r1 r2 t1 t2 : Int,
      mod_mult_inv_loop r1 r2 t1 t2 = mod_mult_inv_fuel (r2.natAbs + 1) r1 r2 t1 t2) := by
  refine ⟨natAbs_tmod_lt, ?_, ?_, ?_⟩
  · intro r1 t1 t2
    rw [mod_mult_inv_loop]
    simp
  · intro r1 r2 t1 t2 hz
    rw [mod_mult_inv_loop, if_neg hz]
  · intro r1 r2 t1 t2
    exact mod_mult_inv_loop_eq_fuel (r2.natAbs + 1) r1 r2 t1 t2 (by omega)

/-- Witness for C9's theorem at `(r1, r2) = (7, 3)`. -/
theorem mod_mult_inv_terminates_witness :
    (Int.tmod 7 3).natAbs < (3 : Int).natAbs ∧
    mod_mult_inv_loop 7 3 0 1
      = mod_mult_inv_loop 3 (Int.tmod 7 3) 1 (0 - Int.tdiv 7 3 * 1) :=
  ⟨mod_mult_inv_terminates.1 7 3 (by decide),
   mod_mult_inv_terminates.2.2.1 7 3 0 1 (by decide)⟩

/-! ### Claim C6: `encrypt`/`decrypt` are `mod_pow` with the right key parts -/

/-- C6: `encrypt` is modular exponentiation by the public exponent modulo
the public modulus, and `decrypt` is modular exponentiation by the private
exponent modulo the modulus taken from the *public* half of the key pair
(the private key carries no modulus of its own). -/
theorem encrypt_decrypt_are_mod_pow :
    ∀ (data n e d : Int),
      encrypt data ⟨n, e⟩ = mod_pow data e n ∧
      decrypt data (⟨n, e⟩, ⟨d⟩) = mod_pow data d n := by
  intro data n e d
  exact ⟨rfl, rfl⟩

/-! ### Claim C7: zero exponent -/

/-- C7 (amended): for every base and every *nonzero* modulus,
`mod_pow base 0 modulo` returns the multiplicative identity: the loop body
never executes.  (For a zero modulus the Rust source panics on
`base % modulo` before the loop; see the counterexample below.) -/
theorem mod_pow_zero_exponent :
    ∀ (base modulo : Int), modulo ≠ 0 → mod_pow base 0 modulo = some 1 := by
  intro base modulo hm
  unfold mod_pow
  rw [if_neg hm, mod_pow_loop_eq_fuel 0 _ _ _ _ (by decide)]
  rfl

/-- Witness for C7's theorem at base 5, modulus 7. -/
theorem mod_pow_zero_exponent_witness : mod_pow 5 0 7 = some 1 :=
  mod_pow_zero_exponent 5 7 (by decide)

/-- C7 counterexample to the claim as stated ("for every modulus"): with
modulus 0 the source divides by zero (a panic, embedded as `none`), so it
does not return the multiplicative identity. -/
theorem mod_pow_zero_modulus_counterexample :
    mod_pow 5 0 0 = none ∧ mod_pow 5 0 0 ≠ some 1 := by
  constructor <;> decide

/-! ### Key generation: invariants of `e` and `d` -/

/-- Invariants of a generated key pair, assuming only the `gen_range(1, φ)`
contract on the sample stream (each draw lies in `[1, φ)`): the public
exponent is the first coprime draw, hence `1 ≤ e < φ` and `gcd(φ, e) = 1`;
the private exponent satisfies `0 ≤ d < φ` and `d·e ≡ 1 (mod φ)`. -/
theorem gen_key_pair_spec (p q : Int) (draws : Nat → Int)
    (h : ∃ i, Int.gcd ((p - 1) * (q - 1)) (draws i) = 1)
    (hrange : ∀ i, 1 ≤ draws i ∧ draws i < (p - 1) * (q - 1)) :
    1 ≤ (gen_key_pair p q draws h).1.e ∧
    (gen_key_pair p q draws h).1.e < (p - 1) * (q - 1) ∧
    Int.gcd ((p - 1) * (q - 1)) ((gen_key_pair p q draws h).1.e) = 1 ∧
    0 ≤ (gen_key_pair p q draws h).2.d ∧
    (gen_key_pair p q draws h).2.d < (p - 1) * (q - 1) ∧
    Int.ModEq ((p - 1) * (q - 1))
      ((gen_key_pair p q draws h).2.d * (gen_key_pair p q draws h).1.e) 1 := by
  set phi := (p - 1) * (q - 1) with hphi
  have hee : (gen_key_pair p q draws h).1.e = draws (Nat.find h) := rfl
  set e := draws (Nat.find h) with he
  have he1 : 1 ≤ e := (hrange (Nat.find h)).1
  have he2 : e < phi := (hrange (Nat.find h)).2
  have hphi2 : 2 ≤ phi := by omega
  have hgcd : Int.gcd phi e = 1 := Nat.find_spec h
  have hdd : (gen_key_pair p q draws h).2.d
      = (if mod_mult_inv phi e < 0 then mod_mult_inv phi e + phi
         else mod_mult_inv phi e) := rfl
  set T := mod_mult_inv phi e with hT
  -- Bézout congruence: T * e ≡ 1 (mod φ)
  obtain ⟨g, hc, ha, hs⟩ := mod_mult_inv_bezout_aux phi e
  have hg1 : g = 1 := by
    have h0 : 0 ≤ g := hs (by omega) (by omega)
    have : g.natAbs = 1 := by rw [ha, hgcd]
    omega
  rw [hg1] at hc
  rw [← hT] at hc
  -- size bound: -φ ≤ T ≤ φ
  obtain ⟨hb1, hb2⟩ := mod_mult_inv_bound phi e he1 he2
  rw [← hT] at hb1 hb2
  -- T = φ is impossible: φ·e ≡ 0, not 1, mod φ
  have hTne : T ≠ phi := by
    intro hTeq
    rw [hTeq] at hc
    have hdvd : phi ∣ 1 - phi * e := hc.dvd
    have h1 : phi ∣ 1 := by
      have := dvd_add hdvd (⟨e, rfl⟩ : phi ∣ phi * e)
      simpa using this
    have := Int.le_of_dvd (by omega) h1
    omega
  have hd : (gen_key_pair p q draws h).2.d = if T < 0 then T + phi else T := hdd
  have hdmod : Int.ModEq phi ((gen_key_pair p q draws h).2.d) T := by
    rw [hd]
    by_cases hT0 : T < 0
    · rw [if_pos hT0]
      exact (Int.modEq_iff_dvd.mpr ⟨-1, by ring⟩)
    · rw [if_neg hT0]
  refine ⟨by rw [hee]; exact he1, by rw [hee]; exact he2, by rw [hee]; exact hgcd,
    ?_, ?_, ?_⟩
  · rw [hd]; by_cases hT0 : T < 0
    · rw [if_pos hT0]; omega
    · rw [if_neg hT0]; omega
  · rw [hd]; by_cases hT0 : T < 0
    · rw [if_pos hT0]; omega
    · rw [if_neg hT0]; omega
  · rw [hee]
    exact (hdmod.mul_right e).trans hc

/-! ### Claim C5: the private exponent -/

/-- C5: under the `gen_range(1, φ)` contract on the sample stream (which
holds for every randomness source the code accepts, in particular for any
pair of primes), the private exponent `d` equals the `mod_mult_inv`
result normalised by adding `φ` when negative, and satisfies `0 ≤ d < φ`
and `(d·e) mod φ = 1` for the generated public exponent `e`. -/
theorem gen_key_pair_private_exponent (p q : Int) (draws : Nat → Int)
    (h : ∃ i, Int.gcd ((p - 1) * (q - 1)) (draws i) = 1)
    (hrange : ∀ i, 1 ≤ draws i ∧ draws i < (p - 1) * (q - 1)) :
    (gen_key_pair p q draws h).2.d
      = (if mod_mult_inv ((p - 1) * (q - 1)) ((gen_key_pair p q draws h).1.e) < 0
         then mod_mult_inv ((p - 1) * (q - 1)) ((gen_key_pair p q draws h).1.e)
              + (p - 1) * (q - 1)
         else mod_mult_inv ((p - 1) * (q - 1)) ((gen_key_pair p q draws h).1.e)) ∧
    0 ≤ (gen_key_pair p q draws h).2.d ∧
    (gen_key_pair p q draws h).2.d < (p - 1) * (q - 1) ∧
    ((gen_key_pair p q draws h).2.d * (gen_key_pair p q draws h).1.e)
        % ((p - 1) * (q - 1)) = 1 := by
  obtain ⟨he1, he2, _, hd0, hdlt, hde⟩ := gen_key_pair_spec p q draws h hrange
  refine ⟨rfl, hd0, hdlt, ?_⟩
  have h1 : (1 : Int) % ((p - 1) * (q - 1)) = 1 :=
    Int.emod_eq_of_lt (by omega) (by omega)
  calc ((gen_key_pair p q draws h).2.d * (gen_key_pair p q draws h).1.e)
        % ((p - 1) * (q - 1)) = (1 : Int) % ((p - 1) * (q - 1)) := hde
    _ = 1 := h1

/-- A constant sample stream always drawing 3 (a value `gen_range(1, 8)`
can produce), for concrete instantiations. -/
def drawsThree : Nat → Int := fun _ => 3

/-- The constant-3 stream immediately hits a draw coprime to `φ = 8`. -/
theorem drawsThree_coprime_eight :
    ∃ i, Int.gcd ((3 - 1) * (5 - 1)) (drawsThree i) = 1 := ⟨0, by decide⟩

/-- Witness for C5's theorem at `p = 3`, `q = 5`, constant draw 3. -/
theorem gen_key_pair_private_exponent_witness :
    (gen_key_pair 3 5 drawsThree drawsThree_coprime_eight).2.d
      = (if mod_mult_inv ((3 - 1) * (5 - 1))
              ((gen_key_pair 3 5 drawsThree drawsThree_coprime_eight).1.e) < 0
         then mod_mult_inv ((3 - 1) * (5 - 1))
              ((gen_key_pair 3 5 drawsThree drawsThree_coprime_eight).1.e)
              + (3 - 1) * (5 - 1)
         else mod_mult_inv ((3 - 1) * (5 - 1))
              ((gen_key_pair 3 5 drawsThree drawsThree_coprime_eight).1.e)) ∧
    0 ≤ (gen_key_pair 3 5 drawsThree drawsThree_coprime_eight).2.d ∧
    (gen_key_pair 3 5 drawsThree drawsThree_coprime_eight).2.d < (3 - 1) * (5 - 1) ∧
    ((gen_key_pair 3 5 drawsThree drawsThree_coprime_eight).2.d
        * (gen_key_pair 3 5 drawsThree drawsThree_coprime_eight).1.e)
        % ((3 - 1) * (5 - 1)) = 1 :=
  gen_key_pair_private_exponent 3 5 drawsThree drawsThree_coprime_eight
    (fun _ => (⟨by decide, by decide⟩ :
      (1 : Int) ≤ 3 ∧ (3 : Int) < (3 - 1) * (5 - 1)))

/-! ### Claim C4: the public exponent (a code bug) -/

/-- A constant sample stream always drawing 1 (a value `gen_range(1, φ)`
can produce, since `rand`'s lower bound is inclusive). -/
def drawsOne : Nat → Int := fun _ => 1

/-- The constant-1 stream immediately passes the coprimality filter,
because `gcd(φ, 1) = 1` for every `φ`. -/
theorem drawsOne_coprime_eight :
    ∃ i, Int.gcd ((3 - 1) * (5 - 1)) (drawsOne i) = 1 := ⟨0, by decide⟩

/-- C4 is violated by the code: with `p = 3`, `q = 5` (`φ = 8`) and a
randomness source whose draw is 1 — which is inside `gen_range(1, φ)`'s
half-open range `[1, φ)` — the generated public exponent is `e = 1`,
contradicting `1 < e` (asserted by the code's own comment and test). -/
theorem gen_key_pair_e_eq_one_bug :
    (1 ≤ drawsOne 0 ∧ drawsOne 0 < (3 - 1) * (5 - 1)) ∧
    (gen_key_pair 3 5 drawsOne drawsOne_coprime_eight).1.e = 1 ∧
    ¬ (1 < (gen_key_pair 3 5 drawsOne drawsOne_coprime_eight).1.e) := by
  refine ⟨⟨by decide, by decide⟩, rfl, ?_⟩
  rw [show (gen_key_pair 3 5 drawsOne drawsOne_coprime_eight).1.e = 1 from rfl]
  decide

/-! ### The RSA round-trip -/

/-- Arithmetic core of RSA correctness: for distinct primes `P ≠ Q`, an
exponent `ed ≡ 1 (mod (P-1)(Q-1))` and a message coprime to `P·Q`,
`M ^ ed ≡ M (mod P·Q)` (by Euler's theorem). -/
theorem rsa_core (P Q : Nat) (hp : P.Prime) (hq : Q.Prime) (hne : P ≠ Q)
    (ed : Nat) (hed : Nat.ModEq ((P - 1) * (Q - 1)) ed 1)
    (M : Nat) (hcop : Nat.Coprime M (P * Q)) :
    Nat.ModEq (P * Q) (M ^ ed) M := by
  have hp2 := hp.two_le
  have hq2 := hq.two_le
  have hphi : Nat.totient (P * Q) = (P - 1) * (Q - 1) := by
    rw [Nat.totient_mul ((Nat.coprime_primes hp hq).mpr hne),
      Nat.totient_prime hp, Nat.totient_prime hq]
  have hphi2 : 2 ≤ (P - 1) * (Q - 1) := by
    have h3 : 3 ≤ P ∨ 3 ≤ Q := by omega
    rcases h3 with h3 | h3
    · calc 2 = 2 * 1 := by norm_num
        _ ≤ (P - 1) * (Q - 1) := Nat.mul_le_mul (by omega) (by omega)
    · calc 2 = 1 * 2 := by norm_num
        _ ≤ (P - 1) * (Q - 1) := Nat.mul_le_mul (by omega) (by omega)
  have hed1 : 1 ≤ ed := by
    rcases Nat.eq_zero_or_pos ed with h0 | h0
    · subst h0
      have := hed
      unfold Nat.ModEq at this
      rw [Nat.zero_mod, Nat.mod_eq_of_lt (by omega)] at this
      omega
    · exact h0
  obtain ⟨k, hk⟩ := (Nat.modEq_iff_dvd' hed1).mp hed.symm
  have hedk : ed = (P - 1) * (Q - 1) * k + 1 := by omega
  have heuler : Nat.ModEq (P * Q) (M ^ Nat.totient (P * Q)) 1 :=
    Nat.ModEq.pow_totient hcop
  rw [hphi] at heuler
  calc M ^ ed = (M ^ ((P - 1) * (Q - 1))) ^ k * M := by
        rw [hedk, pow_add, pow_mul, pow_one]
    _ ≡ 1 ^ k * M [MOD P * Q] := (heuler.pow k).mul_right M
    _ = M := by rw [one_pow, one_mul]

/-- Round trip of `encrypt` then `decrypt` on a generated key pair, for
distinct positive primes, a sample stream obeying the `gen_range(1, φ)`
contract, and a plaintext `0 ≤ m < n` coprime to `n`. -/
theorem rsa_round_trip_aux (p q : Int) (draws : Nat → Int)
    (h : ∃ i, Int.gcd ((p - 1) * (q - 1)) (draws i) = 1)
    (hrange : ∀ i, 1 ≤ draws i ∧ draws i < (p - 1) * (q - 1))
    (hp : p.toNat.Prime) (hq : q.toNat.Prime) (hne : p ≠ q)
    (m : Int) (hm0 : 0 ≤ m) (hmn : m < p * q) (hcop : Int.gcd m (p * q) = 1) :
    (encrypt m (gen_key_pair p q draws h).1).bind
      (fun c => decrypt c (gen_key_pair p q draws h)) = some m := by
  obtain ⟨he1, he2, hgcd, hd0, hdlt, hde⟩ := gen_key_pair_spec p q draws h hrange
  set e := (gen_key_pair p q draws h).1.e with he
  set d := (gen_key_pair p q draws h).2.d with hd
  have hp2 : 2 ≤ p := by have := hp.two_le; omega
  have hq2 : 2 ≤ q := by have := hq.two_le; omega
  have hn4 : 4 ≤ p * q := by nlinarith
  have henc : encrypt m (gen_key_pair p q draws h).1
      = some (Int.tmod (m ^ e.toNat) (p * q)) := by
    show mod_pow m e (p * q) = _
    exact mod_pow_pow_aux m e (p * q) (by omega) (by omega) (Or.inl (by omega))
  rw [henc]
  show decrypt (Int.tmod (m ^ e.toNat) (p * q)) (gen_key_pair p q draws h) = some m
  set c := Int.tmod (m ^ e.toNat) (p * q) with hc
  have hc0 : 0 ≤ c := Int.tmod_nonneg _ (pow_nonneg hm0 _)
  have hdec : decrypt c (gen_key_pair p q draws h)
      = some (Int.tmod (c ^ d.toNat) (p * q)) := by
    show mod_pow c d (p * q) = _
    exact mod_pow_pow_aux c d (p * q) (by omega) (by omega) (Or.inr ⟨by omega, by omega⟩)
  rw [hdec]
  set E := e.toNat with hE
  set D := d.toNat with hD
  -- move to the Euclidean remainder
  have hcm : c = (m ^ E) % (p * q) := by
    rw [hc, Int.tmod_eq_emod (pow_nonneg hm0 _) (by omega)]
  have htm : Int.tmod (c ^ D) (p * q) = (c ^ D) % (p * q) :=
    Int.tmod_eq_emod (pow_nonneg hc0 _) (by omega)
  rw [htm]
  -- congruence chain: c ^ D ≡ (m ^ E) ^ D = m ^ (E·D) ≡ m  (mod p·q)
  have h1 : Int.ModEq (p * q) (c ^ D) ((m ^ E) ^ D) := by
    apply Int.ModEq.pow
    rw [hcm]
    exact Int.emod_emod_of_dvd _ dvd_rfl
  have h2 : (m ^ E) ^ D = m ^ (E * D) := (pow_mul m E D).symm
  -- transfer the exponent congruence and coprimality to ℕ
  set P := p.toNat with hP
  set Q := q.toNat with hQ
  set M := m.toNat with hM
  have hpP : p = (P : Int) := by omega
  have hqQ : q = (Q : Int) := by omega
  have hmM : m = (M : Int) := by omega
  have hneN : P ≠ Q := by omega
  have hcopN : Nat.Coprime M (P * Q) := by
    unfold Int.gcd at hcop
    unfold Nat.Coprime
    have ha : m.natAbs = M := by omega
    have hb : (p * q).natAbs = P * Q := by
      rw [Int.natAbs_mul]
      have hpa : p.natAbs = P := by omega
      have hqa : q.natAbs = Q := by omega
      rw [hpa, hqa]
    rw [ha, hb] at hcop
    exact hcop
  have hphiN : (p - 1) * (q - 1) = (((P - 1) * (Q - 1) : Nat) : Int) := by
    rw [Nat.cast_mul, Nat.cast_sub (by omega), Nat.cast_sub (by omega),
      Nat.cast_one, hpP, hqQ]
  have hedN : Nat.ModEq ((P - 1) * (Q - 1)) (E * D) 1 := by
    have hdi : d = (D : Int) := by omega
    have hei : e = (E : Int) := by omega
    have hde' := hde
    rw [hphiN, hdi, hei] at hde'
    rw [show ((D : Int) * (E : Int)) = ((D * E : Nat) : Int) by push_cast; ring] at hde'
    rw [show (1 : Int) = ((1 : Nat) : Int) by norm_num] at hde'
    have hnn := Int.natCast_modEq_iff.mp hde'
    rwa [Nat.mul_comm D E] at hnn
  have hcore : Nat.ModEq (P * Q) (M ^ (E * D)) M :=
    rsa_core P Q hp hq hneN (E * D) hedN M hcopN
  have hcoreZ : Int.ModEq (p * q) (m ^ (E * D)) m := by
    have hz := Int.natCast_modEq_iff.mpr hcore
    rw [show ((M ^ (E * D) : Nat) : Int) = ((M : Int)) ^ (E * D) by push_cast; ring,
      show ((P * Q : Nat) : Int) = ((P : Int)) * ((Q : Int)) by push_cast; ring] at hz
    rw [hpP, hqQ, hmM]
    exact hz
  have hfinal : Int.ModEq (p * q) (c ^ D) m := by
    calc c ^ D ≡ (m ^ E) ^ D [ZMOD p * q] := h1
      _ = m ^ (E * D) := h2
      _ ≡ m [ZMOD p * q] := hcoreZ
  have : (c ^ D) % (p * q) = m % (p * q) := hfinal
  rw [this, Int.emod_eq_of_lt hm0 hmn]

/-! ### Claim C1: the round-trip guarantee -/

/-- C1 (amended): for every pair of *distinct* positive primes `p ≠ q`,
every key pair generated from a sample stream obeying the
`gen_range(1, φ)` contract, and every plaintext `0 ≤ m < n` coprime to
`n = p·q`, decrypting the encryption of `m` returns `m`. -/
theorem rsa_round_trip (p q : Int) (draws : Nat → Int)
    (h : ∃ i, Int.gcd ((p - 1) * (q - 1)) (draws i) = 1)
    (hrange : ∀ i, 1 ≤ draws i ∧ draws i < (p - 1) * (q - 1))
    (hp : p.toNat.Prime) (hq : q.toNat.Prime) (hne : p ≠ q)
    (m : Int) (hm0 : 0 ≤ m) (hmn : m < p * q) (hcop : Int.gcd m (p * q) = 1) :
    (encrypt m (gen_key_pair p q draws h).1).bind
      (fun c => decrypt c (gen_key_pair p q draws h)) = some m :=
  rsa_round_trip_aux p q draws h hrange hp hq hne m hm0 hmn hcop

/-- Witness for C1's theorem: `p = 3`, `q = 5`, constant draw 3
(so `e = 3`, `d = 3`), plaintext `m = 2`. -/
theorem rsa_round_trip_witness :
    (encrypt 2 (gen_key_pair 3 5 drawsThree drawsThree_coprime_eight).1).bind
      (fun c => decrypt c (gen_key_pair 3 5 drawsThree drawsThree_coprime_eight))
      = some 2 :=
  rsa_round_trip 3 5 drawsThree drawsThree_coprime_eight
    (fun _ => (⟨by decide, by decide⟩ :
      (1 : Int) ≤ 3 ∧ (3 : Int) < (3 - 1) * (5 - 1)))
    ((by norm_num : Nat.Prime 3)) ((by norm_num : Nat.Prime 5))
    (by decide) 2 (by decide) (by decide) (by decide)

/-- The constant-3 stream also immediately hits a draw coprime to
`φ = (3-1)·(3-1) = 4`. -/
theorem drawsThree_coprime_four :
    ∃ i, Int.gcd ((3 - 1) * (3 - 1)) (drawsThree i) = 1 := ⟨0, by decide⟩

/-- C1 counterexample to the claim as stated (over *every* pair of
primes): with the non-distinct prime pair `p = q = 3` and a valid sample
stream (constant 3, inside `[1, φ) = [1, 4)`), the plaintext `m = 2`
(`0 ≤ 2 < 9`, `gcd(2, 9) = 1`) encrypts and then decrypts to `8`, not
`2`: `φ = (3-1)·(3-1) = 4` is not the totient of `9`. -/
theorem rsa_round_trip_counterexample :
    Nat.Prime ((3 : Int)).toNat ∧
    (1 ≤ drawsThree 0 ∧ drawsThree 0 < (3 - 1) * (3 - 1)) ∧
    (0 : Int) ≤ 2 ∧ (2 : Int) < 3 * 3 ∧ Int.gcd 2 (3 * 3) = 1 ∧
    (encrypt 2 (gen_key_pair 3 3 drawsThree drawsThree_coprime_four).1).bind
      (fun c => decrypt c (gen_key_pair 3 3 drawsThree drawsThree_coprime_four))
      = some 8 ∧
    some (8 : Int) ≠ some (2 : Int) := by
  have hinv : mod_mult_inv 4 3 = -1 := by
    show mod_mult_inv_loop 4 3 0 1 = -1
    rw [mod_mult_inv_loop_eq_fuel 3 4 3 0 1 (by decide)]
    decide
  have hd3 : (gen_key_pair 3 3 drawsThree drawsThree_coprime_four).2.d = 3 := by
    show (if mod_mult_inv 4 3 < 0 then mod_mult_inv 4 3 + 4 else mod_mult_inv 4 3) = 3
    rw [hinv]
    decide
  have hkey : gen_key_pair 3 3 drawsThree drawsThree_coprime_four
      = (⟨9, 3⟩, ⟨3⟩) := by
    have h1 : (gen_key_pair 3 3 drawsThree drawsThree_coprime_four).1
        = (⟨9, 3⟩ : PublicKey) := rfl
    have h2 : (gen_key_pair 3 3 drawsThree drawsThree_coprime_four).2
        = (⟨3⟩ : PrivateKey) := by
      have h3 : (gen_key_pair 3 3 drawsThree drawsThree_coprime_four).2
          = ⟨(gen_key_pair 3 3 drawsThree drawsThree_coprime_four).2.d⟩ := rfl
      rw [h3, hd3]
    exact Prod.ext h1 h2
  have henc : encrypt 2 (⟨9, 3⟩ : PublicKey) = some 8 := by
    show mod_pow 2 3 9 = some 8
    unfold mod_pow
    rw [if_neg (by decide), mod_pow_loop_eq_fuel 3 _ _ _ _ (by decide)]
    decide
  have hdec : decrypt 8 ((⟨9, 3⟩ : PublicKey), (⟨3⟩ : PrivateKey)) = some 8 := by
    show mod_pow 8 3 9 = some 8
    unfold mod_pow
    rw [if_neg (by decide), mod_pow_loop_eq_fuel 3 _ _ _ _ (by decide)]
    decide
  refine ⟨(by norm_num : Nat.Prime 3), ⟨by decide, by decide⟩, by decide, by decide,
    by decide, ?_, by decide⟩
  rw [hkey, henc]
  exact hdec

end ToyRsa
